import Mathlib

/-!
Shallow embedding of `src/little.ts`: the `BinReader` / `BinWriter`
little-endian binary cursor pair built on `node:buffer`.

Modelling conventions:

* A `Buffer` is a `List Nat` of bytes (each element is a value stored through
  a `Uint8Array` slot, hence `< 256` whenever it was produced by the code).
* JavaScript numbers holding integer values are modelled as `Int`; the reader
  `position` is an `Int` because `readBytes` adds a caller-supplied (possibly
  negative) length to it with no check.
* `node:buffer` checked accessors (`readUInt8`, `writeInt16LE`, ...) throw
  `ERR_OUT_OF_RANGE` on an out-of-bounds offset (reads) or an unrepresentable
  value (writes); a thrown error propagates before the `this.position += w`
  (reader) or `this.buffer = concat(...)` (writer) statement executes, so the
  object is unchanged on failure.  Each method is therefore embedded as a
  function returning `Except BinErr α × State`, where the returned state is
  the receiver itself in the error case.
* IEEE-754 floats are modelled at the bit-pattern level: `writeFloatLE` /
  `writeDoubleLE` store the 4- resp. 8-byte IEEE-754 representation of the
  number and `readFloatLE` / `readDoubleLE` load it back, so a float value is
  represented by its bit pattern (a `Nat` below `2 ^ 32` resp. `2 ^ 64`) and
  bit-exact float equality is equality of patterns.
-/

/-- Error condition raised by the checked `node:buffer` accessors
(`ERR_OUT_OF_RANGE`), covering both out-of-bounds read offsets and
unrepresentable write values. -/
inductive BinErr where
  | outOfRange
deriving DecidableEq

deriving instance DecidableEq for Except

/-- State of a `BinReader` from `src/little.ts`: the wrapped buffer and the
current `position` (an integer byte offset, initially `0`). -/
structure BinReader where
  buffer : List Nat
  position : Int
deriving DecidableEq

/-- Construction `new BinReader(buffer)`: wraps `buffer`, `position = 0`. -/
def BinReader.new (buffer : List Nat) : BinReader :=
  { buffer := buffer, position := 0 }

/-- Indexed access `buf[i]` on a `Uint8Array`: an element for an integer index
with `0 ≤ i < length`, `undefined` (here `none`) otherwise. -/
def idx (buf : List Nat) (i : Int) : Option Nat :=
  if 0 ≤ i ∧ i < (buf.length : Int) then some (buf.getD i.toNat 0) else none

/-- Sign extension used by the node `readIntN` accessors: reinterpret the
unsigned `w`-bit value `v` as a two's-complement signed integer. -/
def toSigned (w : Nat) (v : Nat) : Int :=
  if v < 2 ^ (w - 1) then (v : Int) else (v : Int) - 2 ^ w

/-- Method `BinReader.readUInt8`: `buffer.readUInt8(position)` (throws
`ERR_OUT_OF_RANGE` when `buffer[position]` is `undefined`), then
`position += 1`. -/
def BinReader.readUInt8 (r : BinReader) : Except BinErr Int × BinReader :=
  match idx r.buffer r.position with
  | some v => (.ok (v : Int), { r with position := r.position + 1 })
  | none => (.error .outOfRange, r)

/-- Method `BinReader.readUInt16`: `buffer.readUInt16LE(position)` reads the
bytes at `position` and `position + 1` (throwing if either is `undefined`) and
combines them little-endian, then `position += 2`. -/
def BinReader.readUInt16 (r : BinReader) : Except BinErr Int × BinReader :=
  match idx r.buffer r.position, idx r.buffer (r.position + 1) with
  | some b0, some b1 =>
      (.ok ((b0 + b1 * 2 ^ 8 : Nat) : Int), { r with position := r.position + 2 })
  | _, _ => (.error .outOfRange, r)

/-- Method `BinReader.readUInt32`: `buffer.readUInt32LE(position)` combines the
four bytes at `position .. position + 3` little-endian (node checks the first
and last byte for `undefined`; with both in bounds the middle two are as
well, so all four are matched here), then `position += 4`. -/
def BinReader.readUInt32 (r : BinReader) : Except BinErr Int × BinReader :=
  match idx r.buffer r.position, idx r.buffer (r.position + 1),
      idx r.buffer (r.position + 2), idx r.buffer (r.position + 3) with
  | some b0, some b1, some b2, some b3 =>
      (.ok ((b0 + b1 * 2 ^ 8 + b2 * 2 ^ 16 + b3 * 2 ^ 24 : Nat) : Int),
        { r with position := r.position + 4 })
  | _, _, _, _ => (.error .outOfRange, r)

/-- Method `BinReader.readInt8`: `buffer.readInt8(position)` reads one byte and
sign-extends it, then `position += 1`. -/
def BinReader.readInt8 (r : BinReader) : Except BinErr Int × BinReader :=
  match idx r.buffer r.position with
  | some v => (.ok (toSigned 8 v), { r with position := r.position + 1 })
  | none => (.error .outOfRange, r)

/-- Method `BinReader.readInt16`: `buffer.readInt16LE(position)` combines two
bytes little-endian and sign-extends the 16-bit value, then `position += 2`. -/
def BinReader.readInt16 (r : BinReader) : Except BinErr Int × BinReader :=
  match idx r.buffer r.position, idx r.buffer (r.position + 1) with
  | some b0, some b1 =>
      (.ok (toSigned 16 (b0 + b1 * 2 ^ 8)), { r with position := r.position + 2 })
  | _, _ => (.error .outOfRange, r)

/-- Method `BinReader.readInt32`: `buffer.readInt32LE(position)` combines four
bytes little-endian and sign-extends the 32-bit value, then `position += 4`. -/
def BinReader.readInt32 (r : BinReader) : Except BinErr Int × BinReader :=
  match idx r.buffer r.position, idx r.buffer (r.position + 1),
      idx r.buffer (r.position + 2), idx r.buffer (r.position + 3) with
  | some b0, some b1, some b2, some b3 =>
      (.ok (toSigned 32 (b0 + b1 * 2 ^ 8 + b2 * 2 ^ 16 + b3 * 2 ^ 24)),
        { r with position := r.position + 4 })
  | _, _, _, _ => (.error .outOfRange, r)

/-- Method `BinReader.readFloat32`: `buffer.readFloatLE(position)` loads the
4-byte IEEE-754 single at `position` (modelled as its 32-bit pattern), then
`position += 4`. -/
def BinReader.readFloat32 (r : BinReader) : Except BinErr Int × BinReader :=
  match idx r.buffer r.position, idx r.buffer (r.position + 1),
      idx r.buffer (r.position + 2), idx r.buffer (r.position + 3) with
  | some b0, some b1, some b2, some b3 =>
      (.ok ((b0 + b1 * 2 ^ 8 + b2 * 2 ^ 16 + b3 * 2 ^ 24 : Nat) : Int),
        { r with position := r.position + 4 })
  | _, _, _, _ => (.error .outOfRange, r)

/-- Method `BinReader.readDouble`: `buffer.readDoubleLE(position)` loads the
8-byte IEEE-754 double at `position` (modelled as its 64-bit pattern), then
`position += 8`. -/
def BinReader.readDouble (r : BinReader) : Except BinErr Int × BinReader :=
  match idx r.buffer r.position, idx r.buffer (r.position + 1),
      idx r.buffer (r.position + 2), idx r.buffer (r.position + 3),
      idx r.buffer (r.position + 4), idx r.buffer (r.position + 5),
      idx r.buffer (r.position + 6), idx r.buffer (r.position + 7) with
  | some b0, some b1, some b2, some b3, some b4, some b5, some b6, some b7 =>
      (.ok ((b0 + b1 * 2 ^ 8 + b2 * 2 ^ 16 + b3 * 2 ^ 24 + b4 * 2 ^ 32
          + b5 * 2 ^ 40 + b6 * 2 ^ 48 + b7 * 2 ^ 56 : Nat) : Int),
        { r with position := r.position + 8 })
  | _, _, _, _, _, _, _, _ => (.error .outOfRange, r)

/-- Index resolution of `TypedArray.prototype.subarray` (ECMA-262): a negative
relative index counts from the end (`length + i`, floored at `0`); a
nonnegative one is capped at `length`. -/
def resolveIndex (len : Nat) (i : Int) : Nat :=
  if i < 0 then ((len : Int) + i).toNat else min i.toNat len

/-- Operation `buf.subarray(b, e)`: the elements from resolved index `b`
(inclusive) to resolved index `e` (exclusive), empty when they cross. -/
def subarray (buf : List Nat) (b e : Int) : List Nat :=
  (buf.drop (resolveIndex buf.length b)).take
    (resolveIndex buf.length e - resolveIndex buf.length b)

/-- Method `BinReader.readBytes(length)`: returns
`buffer.subarray(position, position + length)` and then unconditionally
executes `position += length`; no bounds or sign check is performed. -/
def BinReader.readBytes (r : BinReader) (length : Int) : List Nat × BinReader :=
  (subarray r.buffer r.position (r.position + length),
    { r with position := r.position + length })

/-- State of a `BinWriter` from `src/little.ts`: the owned output buffer,
initially empty. -/
structure BinWriter where
  buffer : List Nat
deriving DecidableEq

/-- Construction `new BinWriter()`: `buffer = Buffer.alloc(0)`. -/
def BinWriter.new : BinWriter :=
  { buffer := [] }

/-- Little-endian byte encoding of the low `w` bytes of `v`, as stored by the
node `writeUIntN LE` accessors (each `Uint8Array` store masks to the low
8 bits). -/
def toLEBytes : Nat → Nat → List Nat
  | 0, _ => []
  | w + 1, v => v % 2 ^ 8 :: toLEBytes w (v / 2 ^ 8)

/-- Method `BinWriter.writeUInt8`: `chunk.writeUInt8(value, 0)` validates
`0 ≤ value ≤ 2^8 - 1` (throwing `ERR_OUT_OF_RANGE` otherwise, leaving the
writer unchanged) and stores the byte; the chunk is then concatenated onto
`buffer`. -/
def BinWriter.writeUInt8 (w : BinWriter) (value : Int) : Except BinErr Unit × BinWriter :=
  if 0 ≤ value ∧ value ≤ 2 ^ 8 - 1 then
    (.ok (), { buffer := w.buffer ++ toLEBytes 1 value.toNat })
  else (.error .outOfRange, w)

/-- Method `BinWriter.writeUInt16`: `chunk.writeUInt16LE(value, 0)` validates
`0 ≤ value ≤ 2^16 - 1` and stores the two little-endian bytes; the chunk is
concatenated onto `buffer`. -/
def BinWriter.writeUInt16 (w : BinWriter) (value : Int) : Except BinErr Unit × BinWriter :=
  if 0 ≤ value ∧ value ≤ 2 ^ 16 - 1 then
    (.ok (), { buffer := w.buffer ++ toLEBytes 2 value.toNat })
  else (.error .outOfRange, w)

/-- Method `BinWriter.writeUInt32`: `chunk.writeUInt32LE(value, 0)` validates
`0 ≤ value ≤ 2^32 - 1` and stores the four little-endian bytes; the chunk is
concatenated onto `buffer`. -/
def BinWriter.writeUInt32 (w : BinWriter) (value : Int) : Except BinErr Unit × BinWriter :=
  if 0 ≤ value ∧ value ≤ 2 ^ 32 - 1 then
    (.ok (), { buffer := w.buffer ++ toLEBytes 4 value.toNat })
  else (.error .outOfRange, w)

/-- Method `BinWriter.writeInt8`: `chunk.writeInt8(value, 0)` validates
`-2^7 ≤ value ≤ 2^7 - 1` and stores the two's-complement byte
(`value & 0xFF`, i.e. `value mod 2^8`); the chunk is concatenated onto
`buffer`. -/
def BinWriter.writeInt8 (w : BinWriter) (value : Int) : Except BinErr Unit × BinWriter :=
  if -2 ^ 7 ≤ value ∧ value ≤ 2 ^ 7 - 1 then
    (.ok (), { buffer := w.buffer ++ toLEBytes 1 (value % 2 ^ 8).toNat })
  else (.error .outOfRange, w)

/-- Method `BinWriter.writeInt16`: `chunk.writeInt16LE(value, 0)` validates
`-2^15 ≤ value ≤ 2^15 - 1` and stores the two's-complement 16-bit value
(`value mod 2^16`) as two little-endian bytes; the chunk is concatenated onto
`buffer`. -/
def BinWriter.writeInt16 (w : BinWriter) (value : Int) : Except BinErr Unit × BinWriter :=
  if -2 ^ 15 ≤ value ∧ value ≤ 2 ^ 15 - 1 then
    (.ok (), { buffer := w.buffer ++ toLEBytes 2 (value % 2 ^ 16).toNat })
  else (.error .outOfRange, w)

/-- Method `BinWriter.writeInt32`: `chunk.writeInt32LE(value, 0)` validates
`-2^31 ≤ value ≤ 2^31 - 1` and stores the two's-complement 32-bit value
(`value mod 2^32`) as four little-endian bytes; the chunk is concatenated onto
`buffer`. -/
def BinWriter.writeInt32 (w : BinWriter) (value : Int) : Except BinErr Unit × BinWriter :=
  if -2 ^ 31 ≤ value ∧ value ≤ 2 ^ 31 - 1 then
    (.ok (), { buffer := w.buffer ++ toLEBytes 4 (value % 2 ^ 32).toNat })
  else (.error .outOfRange, w)

/-- Method `BinWriter.writeFloat32`: `chunk.writeFloatLE(value, 0)` stores the
4-byte IEEE-754 single representation of `value` (modelled by its 32-bit
pattern `bits`) with no possible failure; the chunk is concatenated onto
`buffer`. -/
def BinWriter.writeFloat32 (w : BinWriter) (bits : Nat) : Except BinErr Unit × BinWriter :=
  (.ok (), { buffer := w.buffer ++ toLEBytes 4 bits })

/-- Method `BinWriter.writeDouble`: `chunk.writeDoubleLE(value, 0)` stores the
8-byte IEEE-754 double representation of `value` (modelled by its 64-bit
pattern `bits`) with no possible failure; the chunk is concatenated onto
`buffer`. -/
def BinWriter.writeDouble (w : BinWriter) (bits : Nat) : Except BinErr Unit × BinWriter :=
  (.ok (), { buffer := w.buffer ++ toLEBytes 8 bits })

/-- Method `BinWriter.writeBytes`: concatenates the given bytes onto `buffer`
verbatim; no possible failure. -/
def BinWriter.writeBytes (w : BinWriter) (value : List Nat) : Except BinErr Unit × BinWriter :=
  (.ok (), { buffer := w.buffer ++ value })

/-- One `BinReader` operation, for stating properties of arbitrary call
sequences; `bytes length` carries the caller-supplied argument of
`readBytes`. -/
inductive ReadOp where
  | u8
  | u16
  | u32
  | i8
  | i16
  | i32
  | f32
  | f64
  | bytes (length : Int)
deriving DecidableEq

/-- Byte width consumed by a read operation (for `readBytes`, the
caller-supplied length). -/
def ReadOp.width : ReadOp → Int
  | .u8 => 1
  | .i8 => 1
  | .u16 => 2
  | .i16 => 2
  | .u32 => 4
  | .i32 => 4
  | .f32 => 4
  | .f64 => 8
  | .bytes n => n

/-- Whether the operation is `readBytes` (the only non-fixed-width read). -/
def ReadOp.isBytes : ReadOp → Bool
  | .bytes _ => true
  | _ => false

/-- Value returned by a read: a number (integer value or float bit pattern)
or a byte span. -/
inductive ReadResult where
  | num (v : Int)
  | span (bs : List Nat)
deriving DecidableEq

/-- Dispatch a `ReadOp` to the corresponding `BinReader` method. -/
def ReadOp.run : ReadOp → BinReader → Except BinErr ReadResult × BinReader
  | .u8, r => ((r.readUInt8).1.map ReadResult.num, (r.readUInt8).2)
  | .u16, r => ((r.readUInt16).1.map ReadResult.num, (r.readUInt16).2)
  | .u32, r => ((r.readUInt32).1.map ReadResult.num, (r.readUInt32).2)
  | .i8, r => ((r.readInt8).1.map ReadResult.num, (r.readInt8).2)
  | .i16, r => ((r.readInt16).1.map ReadResult.num, (r.readInt16).2)
  | .i32, r => ((r.readInt32).1.map ReadResult.num, (r.readInt32).2)
  | .f32, r => ((r.readFloat32).1.map ReadResult.num, (r.readFloat32).2)
  | .f64, r => ((r.readDouble).1.map ReadResult.num, (r.readDouble).2)
  | .bytes n, r => (.ok (ReadResult.span (r.readBytes n).1), (r.readBytes n).2)

/-- Reader state after a sequence of operations (each operation updates the
state it is given; a throwing operation leaves the state unchanged). -/
def runSeq (ops : List ReadOp) (r : BinReader) : BinReader :=
  ops.foldl (fun s op => (op.run s).2) r

/-- One `BinWriter` operation with its argument, for stating properties of
arbitrary call sequences. Integer writes carry the JavaScript number
argument; float writes carry the argument's IEEE-754 bit pattern. -/
inductive WriteOp where
  | u8 (value : Int)
  | u16 (value : Int)
  | u32 (value : Int)
  | i8 (value : Int)
  | i16 (value : Int)
  | i32 (value : Int)
  | f32 (bits : Nat)
  | f64 (bits : Nat)
  | bytes (bs : List Nat)
deriving DecidableEq

/-- Byte width of the encoding a write operation appends on success. -/
def WriteOp.width : WriteOp → Nat
  | .u8 _ => 1
  | .i8 _ => 1
  | .u16 _ => 2
  | .i16 _ => 2
  | .u32 _ => 4
  | .i32 _ => 4
  | .f32 _ => 4
  | .f64 _ => 8
  | .bytes bs => bs.length

/-- Dispatch a `WriteOp` to the corresponding `BinWriter` method. -/
def WriteOp.run : WriteOp → BinWriter → Except BinErr Unit × BinWriter
  | .u8 v, w => w.writeUInt8 v
  | .u16 v, w => w.writeUInt16 v
  | .u32 v, w => w.writeUInt32 v
  | .i8 v, w => w.writeInt8 v
  | .i16 v, w => w.writeInt16 v
  | .i32 v, w => w.writeInt32 v
  | .f32 b, w => w.writeFloat32 b
  | .f64 b, w => w.writeDouble b
  | .bytes bs, w => w.writeBytes bs

/-- Writer state after a sequence of operations. -/
def runWSeq (ops : List WriteOp) (w : BinWriter) : BinWriter :=
  ops.foldl (fun s op => (op.run s).2) w

/-- Every operation of the sequence succeeds when reached. -/
def WSeqOk : List WriteOp → BinWriter → Prop
  | [], _ => True
  | op :: ops, w => (op.run w).1 = .ok () ∧ WSeqOk ops (op.run w).2

/-- IEEE-754 double bit pattern of the literal `123.456`: sign `0`, biased
exponent `1029` (value exponent `6`), 53-bit significand
`8687443681197687`, so the represented value is `8687443681197687 / 2^46`.
The lemma `bits123456_correctly_rounded` checks this is the double nearest
to `123.456`. -/
def bits123456 : Nat := 0x405EDD2F1A9FBE77

theorem bits123456_correctly_rounded :
    bits123456 = 1029 * 2 ^ 52 + (8687443681197687 - 2 ^ 52) ∧
    2 ^ 52 ≤ 8687443681197687 ∧ 8687443681197687 < 2 ^ 53 ∧
    2000 * 8687443681197687 - 123456 * 2 ^ 47 ≤ 1000 ∧
    123456 * 2 ^ 47 - 2000 * 8687443681197687 ≤ 1000 := by
  refine ⟨by decide, by decide, by decide, by decide, by decide⟩

lemma idx_pos (buf : List Nat) (i : Int) (h0 : 0 ≤ i) (h1 : i < (buf.length : Int)) :
    idx buf i = some (buf.getD i.toNat 0) := by
  unfold idx
  rw [if_pos ⟨h0, h1⟩]

lemma idx_some_bounds {buf : List Nat} {i : Int} {v : Nat} (h : idx buf i = some v) :
    0 ≤ i ∧ i < (buf.length : Int) := by
  unfold idx at h
  by_cases hc : 0 ≤ i ∧ i < (buf.length : Int)
  · exact hc
  · rw [if_neg hc] at h
    cases h

/-- Value decoded by `readUInt8` from `buf` at offset `p`. -/
def decodeU8 (buf : List Nat) (p : Int) : Nat :=
  buf.getD p.toNat 0

/-- Unsigned little-endian value of the 2 bytes of `buf` at offset `p`. -/
def decodeU16 (buf : List Nat) (p : Int) : Nat :=
  buf.getD p.toNat 0 + buf.getD (p + 1).toNat 0 * 2 ^ 8

/-- Unsigned little-endian value of the 4 bytes of `buf` at offset `p`. -/
def decodeU32 (buf : List Nat) (p : Int) : Nat :=
  buf.getD p.toNat 0 + buf.getD (p + 1).toNat 0 * 2 ^ 8
    + buf.getD (p + 2).toNat 0 * 2 ^ 16 + buf.getD (p + 3).toNat 0 * 2 ^ 24

/-- Unsigned little-endian value of the 8 bytes of `buf` at offset `p`. -/
def decodeU64 (buf : List Nat) (p : Int) : Nat :=
  buf.getD p.toNat 0 + buf.getD (p + 1).toNat 0 * 2 ^ 8
    + buf.getD (p + 2).toNat 0 * 2 ^ 16 + buf.getD (p + 3).toNat 0 * 2 ^ 24
    + buf.getD (p + 4).toNat 0 * 2 ^ 32 + buf.getD (p + 5).toNat 0 * 2 ^ 40
    + buf.getD (p + 6).toNat 0 * 2 ^ 48 + buf.getD (p + 7).toNat 0 * 2 ^ 56

lemma readUInt8_eq (r : BinReader) :
    r.readUInt8 =
      if 0 ≤ r.position ∧ r.position + 1 ≤ (r.buffer.length : Int) then
        (.ok ((decodeU8 r.buffer r.position : Nat) : Int),
          { r with position := r.position + 1 })
      else (.error .outOfRange, r) := by
  by_cases h : 0 ≤ r.position ∧ r.position + 1 ≤ (r.buffer.length : Int)
  · rw [if_pos h]
    unfold BinReader.readUInt8
    rw [idx_pos _ _ (by omega) (by omega)]
    rfl
  · rw [if_neg h]
    unfold BinReader.readUInt8
    rcases h0 : idx r.buffer r.position with _ | b0
    · rfl
    exfalso
    have c0 := idx_some_bounds h0
    omega

lemma readInt8_eq (r : BinReader) :
    r.readInt8 =
      if 0 ≤ r.position ∧ r.position + 1 ≤ (r.buffer.length : Int) then
        (.ok (toSigned 8 (decodeU8 r.buffer r.position)),
          { r with position := r.position + 1 })
      else (.error .outOfRange, r) := by
  by_cases h : 0 ≤ r.position ∧ r.position + 1 ≤ (r.buffer.length : Int)
  · rw [if_pos h]
    unfold BinReader.readInt8
    rw [idx_pos _ _ (by omega) (by omega)]
    rfl
  · rw [if_neg h]
    unfold BinReader.readInt8
    rcases h0 : idx r.buffer r.position with _ | b0
    · rfl
    exfalso
    have c0 := idx_some_bounds h0
    omega

lemma readUInt16_eq (r : BinReader) :
    r.readUInt16 =
      if 0 ≤ r.position ∧ r.position + 2 ≤ (r.buffer.length : Int) then
        (.ok ((decodeU16 r.buffer r.position : Nat) : Int),
          { r with position := r.position + 2 })
      else (.error .outOfRange, r) := by
  by_cases h : 0 ≤ r.position ∧ r.position + 2 ≤ (r.buffer.length : Int)
  · rw [if_pos h]
    unfold BinReader.readUInt16
    rw [idx_pos _ _ (by omega) (by omega), idx_pos _ _ (by omega) (by omega)]
    rfl
  · rw [if_neg h]
    unfold BinReader.readUInt16
    rcases h0 : idx r.buffer r.position with _ | b0
    · rfl
    rcases h1 : idx r.buffer (r.position + 1) with _ | b1
    · rfl
    exfalso
    have c0 := idx_some_bounds h0
    have c1 := idx_some_bounds h1
    omega

lemma readInt16_eq (r : BinReader) :
    r.readInt16 =
      if 0 ≤ r.position ∧ r.position + 2 ≤ (r.buffer.length : Int) then
        (.ok (toSigned 16 (decodeU16 r.buffer r.position)),
          { r with position := r.position + 2 })
      else (.error .outOfRange, r) := by
  by_cases h : 0 ≤ r.position ∧ r.position + 2 ≤ (r.buffer.length : Int)
  · rw [if_pos h]
    unfold BinReader.readInt16
    rw [idx_pos _ _ (by omega) (by omega), idx_pos _ _ (by omega) (by omega)]
    rfl
  · rw [if_neg h]
    unfold BinReader.readInt16
    rcases h0 : idx r.buffer r.position with _ | b0
    · rfl
    rcases h1 : idx r.buffer (r.position + 1) with _ | b1
    · rfl
    exfalso
    have c0 := idx_some_bounds h0
    have c1 := idx_some_bounds h1
    omega

lemma readUInt32_eq (r : BinReader) :
    r.readUInt32 =
      if 0 ≤ r.position ∧ r.position + 4 ≤ (r.buffer.length : Int) then
        (.ok ((decodeU32 r.buffer r.position : Nat) : Int),
          { r with position := r.position + 4 })
      else (.error .outOfRange, r) := by
  by_cases h : 0 ≤ r.position ∧ r.position + 4 ≤ (r.buffer.length : Int)
  · rw [if_pos h]
    unfold BinReader.readUInt32
    rw [idx_pos _ _ (by omega) (by omega), idx_pos _ _ (by omega) (by omega),
      idx_pos _ _ (by omega) (by omega), idx_pos _ _ (by omega) (by omega)]
    rfl
  · rw [if_neg h]
    unfold BinReader.readUInt32
    rcases h0 : idx r.buffer r.position with _ | b0
    · rfl
    rcases h1 : idx r.buffer (r.position + 1) with _ | b1
    · rfl
    rcases h2 : idx r.buffer (r.position + 2) with _ | b2
    · rfl
    rcases h3 : idx r.buffer (r.position + 3) with _ | b3
    · rfl
    exfalso
    have c0 := idx_some_bounds h0
    have c3 := idx_some_bounds h3
    omega

lemma readInt32_eq (r : BinReader) :
    r.readInt32 =
      if 0 ≤ r.position ∧ r.position + 4 ≤ (r.buffer.length : Int) then
        (.ok (toSigned 32 (decodeU32 r.buffer r.position)),
          { r with position := r.position + 4 })
      else (.error .outOfRange, r) := by
  by_cases h : 0 ≤ r.position ∧ r.position + 4 ≤ (r.buffer.length : Int)
  · rw [if_pos h]
    unfold BinReader.readInt32
    rw [idx_pos _ _ (by omega) (by omega), idx_pos _ _ (by omega) (by omega),
      idx_pos _ _ (by omega) (by omega), idx_pos _ _ (by omega) (by omega)]
    rfl
  · rw [if_neg h]
    unfold BinReader.readInt32
    rcases h0 : idx r.buffer r.position with _ | b0
    · rfl
    rcases h1 : idx r.buffer (r.position + 1) with _ | b1
    · rfl
    rcases h2 : idx r.buffer (r.position + 2) with _ | b2
    · rfl
    rcases h3 : idx r.buffer (r.position + 3) with _ | b3
    · rfl
    exfalso
    have c0 := idx_some_bounds h0
    have c3 := idx_some_bounds h3
    omega

lemma readFloat32_eq (r : BinReader) :
    r.readFloat32 =
      if 0 ≤ r.position ∧ r.position + 4 ≤ (r.buffer.length : Int) then
        (.ok ((decodeU32 r.buffer r.position : Nat) : Int),
          { r with position := r.position + 4 })
      else (.error .outOfRange, r) := by
  by_cases h : 0 ≤ r.position ∧ r.position + 4 ≤ (r.buffer.length : Int)
  · rw [if_pos h]
    unfold BinReader.readFloat32
    rw [idx_pos _ _ (by omega) (by omega), idx_pos _ _ (by omega) (by omega),
      idx_pos _ _ (by omega) (by omega), idx_pos _ _ (by omega) (by omega)]
    rfl
  · rw [if_neg h]
    unfold BinReader.readFloat32
    rcases h0 : idx r.buffer r.position with _ | b0
    · rfl
    rcases h1 : idx r.buffer (r.position + 1) with _ | b1
    · rfl
    rcases h2 : idx r.buffer (r.position + 2) with _ | b2
    · rfl
    rcases h3 : idx r.buffer (r.position + 3) with _ | b3
    · rfl
    exfalso
    have c0 := idx_some_bounds h0
    have c3 := idx_some_bounds h3
    omega

lemma readDouble_eq (r : BinReader) :
    r.readDouble =
      if 0 ≤ r.position ∧ r.position + 8 ≤ (r.buffer.length : Int) then
        (.ok ((decodeU64 r.buffer r.position : Nat) : Int),
          { r with position := r.position + 8 })
      else (.error .outOfRange, r) := by
  by_cases h : 0 ≤ r.position ∧ r.position + 8 ≤ (r.buffer.length : Int)
  · rw [if_pos h]
    unfold BinReader.readDouble
    rw [idx_pos _ _ (by omega) (by omega), idx_pos _ _ (by omega) (by omega),
      idx_pos _ _ (by omega) (by omega), idx_pos _ _ (by omega) (by omega),
      idx_pos _ _ (by omega) (by omega), idx_pos _ _ (by omega) (by omega),
      idx_pos _ _ (by omega) (by omega), idx_pos _ _ (by omega) (by omega)]
    rfl
  · rw [if_neg h]
    unfold BinReader.readDouble
    rcases h0 : idx r.buffer r.position with _ | b0
    · rfl
    rcases h1 : idx r.buffer (r.position + 1) with _ | b1
    · rfl
    rcases h2 : idx r.buffer (r.position + 2) with _ | b2
    · rfl
    rcases h3 : idx r.buffer (r.position + 3) with _ | b3
    · rfl
    rcases h4 : idx r.buffer (r.position + 4) with _ | b4
    · rfl
    rcases h5 : idx r.buffer (r.position + 5) with _ | b5
    · rfl
    rcases h6 : idx r.buffer (r.position + 6) with _ | b6
    · rfl
    rcases h7 : idx r.buffer (r.position + 7) with _ | b7
    · rfl
    exfalso
    have c0 := idx_some_bounds h0
    have c7 := idx_some_bounds h7
    omega

lemma fixed_width_pos (op : ReadOp) (hop : op.isBytes = false) : 0 < op.width := by
  cases op <;> first | decide | simp [ReadOp.isBytes] at hop

lemma run_fixed_ok (op : ReadOp) (hop : op.isBytes = false) (r : BinReader)
    (hb : 0 ≤ r.position ∧ r.position + op.width ≤ (r.buffer.length : Int)) :
    ∃ v, op.run r = (.ok (.num v), { r with position := r.position + op.width }) := by
  cases op with
  | bytes n => simp [ReadOp.isBytes] at hop
  | u8 =>
    simp only [ReadOp.width] at hb ⊢
    simp only [ReadOp.run, readUInt8_eq]
    rw [if_pos hb]
    exact ⟨_, rfl⟩
  | i8 =>
    simp only [ReadOp.width] at hb ⊢
    simp only [ReadOp.run, readInt8_eq]
    rw [if_pos hb]
    exact ⟨_, rfl⟩
  | u16 =>
    simp only [ReadOp.width] at hb ⊢
    simp only [ReadOp.run, readUInt16_eq]
    rw [if_pos hb]
    exact ⟨_, rfl⟩
  | i16 =>
    simp only [ReadOp.width] at hb ⊢
    simp only [ReadOp.run, readInt16_eq]
    rw [if_pos hb]
    exact ⟨_, rfl⟩
  | u32 =>
    simp only [ReadOp.width] at hb ⊢
    simp only [ReadOp.run, readUInt32_eq]
    rw [if_pos hb]
    exact ⟨_, rfl⟩
  | i32 =>
    simp only [ReadOp.width] at hb ⊢
    simp only [ReadOp.run, readInt32_eq]
    rw [if_pos hb]
    exact ⟨_, rfl⟩
  | f32 =>
    simp only [ReadOp.width] at hb ⊢
    simp only [ReadOp.run, readFloat32_eq]
    rw [if_pos hb]
    exact ⟨_, rfl⟩
  | f64 =>
    simp only [ReadOp.width] at hb ⊢
    simp only [ReadOp.run, readDouble_eq]
    rw [if_pos hb]
    exact ⟨_, rfl⟩

lemma run_fixed_err (op : ReadOp) (hop : op.isBytes = false) (r : BinReader)
    (hb : ¬(0 ≤ r.position ∧ r.position + op.width ≤ (r.buffer.length : Int))) :
    op.run r = (.error .outOfRange, r) := by
  cases op with
  | bytes n => simp [ReadOp.isBytes] at hop
  | u8 =>
    simp only [ReadOp.width] at hb
    simp only [ReadOp.run, readUInt8_eq]
    rw [if_neg hb]
    rfl
  | i8 =>
    simp only [ReadOp.width] at hb
    simp only [ReadOp.run, readInt8_eq]
    rw [if_neg hb]
    rfl
  | u16 =>
    simp only [ReadOp.width] at hb
    simp only [ReadOp.run, readUInt16_eq]
    rw [if_neg hb]
    rfl
  | i16 =>
    simp only [ReadOp.width] at hb
    simp only [ReadOp.run, readInt16_eq]
    rw [if_neg hb]
    rfl
  | u32 =>
    simp only [ReadOp.width] at hb
    simp only [ReadOp.run, readUInt32_eq]
    rw [if_neg hb]
    rfl
  | i32 =>
    simp only [ReadOp.width] at hb
    simp only [ReadOp.run, readInt32_eq]
    rw [if_neg hb]
    rfl
  | f32 =>
    simp only [ReadOp.width] at hb
    simp only [ReadOp.run, readFloat32_eq]
    rw [if_neg hb]
    rfl
  | f64 =>
    simp only [ReadOp.width] at hb
    simp only [ReadOp.run, readDouble_eq]
    rw [if_neg hb]
    rfl

lemma run_buffer (op : ReadOp) (r : BinReader) : (op.run r).2.buffer = r.buffer := by
  cases op <;>
    simp only [ReadOp.run, readUInt8_eq, readInt8_eq, readUInt16_eq, readInt16_eq,
      readUInt32_eq, readInt32_eq, readFloat32_eq, readDouble_eq,
      BinReader.readBytes] <;>
    first
    | rfl
    | (split <;> rfl)

lemma run_position (op : ReadOp) (r : BinReader) :
    (op.run r).2.position = r.position ∨ (op.run r).2.position = r.position + op.width := by
  cases op <;>
    simp only [ReadOp.run, ReadOp.width, readUInt8_eq, readInt8_eq, readUInt16_eq,
      readInt16_eq, readUInt32_eq, readInt32_eq, readFloat32_eq, readDouble_eq,
      BinReader.readBytes] <;>
    first
    | (split <;> first | (right ; trivial) | (left ; trivial))
    | (right ; trivial)

lemma runSeq_cons (op : ReadOp) (ops : List ReadOp) (r : BinReader) :
    runSeq (op :: ops) r = runSeq ops (op.run r).2 := rfl

lemma runSeq_buffer (ops : List ReadOp) (r : BinReader) :
    (runSeq ops r).buffer = r.buffer := by
  induction ops generalizing r with
  | nil => rfl
  | cons op ops ih => rw [runSeq_cons, ih, run_buffer]

lemma runSeq_mono (ops : List ReadOp) (h : ∀ op ∈ ops, 0 ≤ ReadOp.width op)
    (r : BinReader) : r.position ≤ (runSeq ops r).position := by
  induction ops generalizing r with
  | nil => exact le_refl _
  | cons op ops ih =>
    rw [runSeq_cons]
    have h1 : r.position ≤ (op.run r).2.position := by
      have hw := h op (by simp)
      rcases run_position op r with he | he <;> rw [he]
      omega
    exact le_trans h1 (ih (fun o ho => h o (by simp [ho])) _)

lemma run_fixed_inv (op : ReadOp) (hop : op.isBytes = false) (r : BinReader)
    (h0 : 0 ≤ r.position) (h1 : r.position ≤ (r.buffer.length : Int)) :
    0 ≤ (op.run r).2.position ∧ (op.run r).2.position ≤ (r.buffer.length : Int) := by
  by_cases hb : 0 ≤ r.position ∧ r.position + op.width ≤ (r.buffer.length : Int)
  · obtain ⟨v, hv⟩ := run_fixed_ok op hop r hb
    have hw := fixed_width_pos op hop
    rw [hv]
    dsimp only
    omega
  · rw [run_fixed_err op hop r hb]
    dsimp only
    omega

lemma toLEBytes_length (w v : Nat) : (toLEBytes w v).length = w := by
  induction w generalizing v with
  | zero => rfl
  | succ w ih => simp [toLEBytes, ih]

lemma rt_u8 (n : Nat) (h : n < 2 ^ 8) :
    (BinWriter.new.writeUInt8 (n : Int)).1 = .ok () ∧
      ((BinReader.new (BinWriter.new.writeUInt8 (n : Int)).2.buffer).readUInt8).1 =
        .ok ((n : Nat) : Int) := by
  have hw : BinWriter.new.writeUInt8 (n : Int) = (.ok (), ⟨toLEBytes 1 n⟩) := by
    unfold BinWriter.new BinWriter.writeUInt8
    rw [if_pos (by omega)]
    simp
  rw [hw]
  dsimp only
  refine ⟨rfl, ?_⟩
  simp only [BinReader.new]
  rw [readUInt8_eq]
  rw [if_pos (by norm_num [toLEBytes_length])]
  dsimp only
  have hv : decodeU8 (toLEBytes 1 n) 0 = n := by
    simp [decodeU8, toLEBytes]
    omega
  rw [hv]

lemma rt_u16 (n : Nat) (h : n < 2 ^ 16) :
    (BinWriter.new.writeUInt16 (n : Int)).1 = .ok () ∧
      ((BinReader.new (BinWriter.new.writeUInt16 (n : Int)).2.buffer).readUInt16).1 =
        .ok ((n : Nat) : Int) := by
  have hw : BinWriter.new.writeUInt16 (n : Int) = (.ok (), ⟨toLEBytes 2 n⟩) := by
    unfold BinWriter.new BinWriter.writeUInt16
    rw [if_pos (by omega)]
    simp
  rw [hw]
  dsimp only
  refine ⟨rfl, ?_⟩
  simp only [BinReader.new]
  rw [readUInt16_eq]
  rw [if_pos (by norm_num [toLEBytes_length])]
  dsimp only
  have hv : decodeU16 (toLEBytes 2 n) 0 = n := by
    simp [decodeU16, toLEBytes]
    omega
  rw [hv]

lemma rt_u32 (n : Nat) (h : n < 2 ^ 32) :
    (BinWriter.new.writeUInt32 (n : Int)).1 = .ok () ∧
      ((BinReader.new (BinWriter.new.writeUInt32 (n : Int)).2.buffer).readUInt32).1 =
        .ok ((n : Nat) : Int) := by
  have hw : BinWriter.new.writeUInt32 (n : Int) = (.ok (), ⟨toLEBytes 4 n⟩) := by
    unfold BinWriter.new BinWriter.writeUInt32
    rw [if_pos (by omega)]
    simp
  rw [hw]
  dsimp only
  refine ⟨rfl, ?_⟩
  simp only [BinReader.new]
  rw [readUInt32_eq]
  rw [if_pos (by norm_num [toLEBytes_length])]
  dsimp only
  have hv : decodeU32 (toLEBytes 4 n) 0 = n := by
    simp [decodeU32, toLEBytes]
    omega
  rw [hv]

lemma rt_i8 (i : Int) (h1 : -2 ^ 7 ≤ i) (h2 : i < 2 ^ 7) :
    (BinWriter.new.writeInt8 i).1 = .ok () ∧
      ((BinReader.new (BinWriter.new.writeInt8 i).2.buffer).readInt8).1 = .ok i := by
  have hw : BinWriter.new.writeInt8 i = (.ok (), ⟨toLEBytes 1 (i % 2 ^ 8).toNat⟩) := by
    unfold BinWriter.new BinWriter.writeInt8
    rw [if_pos (by omega)]
    simp
  rw [hw]
  dsimp only
  refine ⟨rfl, ?_⟩
  simp only [BinReader.new]
  rw [readInt8_eq]
  rw [if_pos (by norm_num [toLEBytes_length])]
  dsimp only
  have hv : decodeU8 (toLEBytes 1 (i % 2 ^ 8).toNat) 0 = (i % 2 ^ 8).toNat := by
    simp [decodeU8, toLEBytes]
    omega
  rw [hv]
  have hs : toSigned 8 (i % 2 ^ 8).toNat = i := by
    unfold toSigned
    split <;> omega
  rw [hs]

lemma rt_i16 (i : Int) (h1 : -2 ^ 15 ≤ i) (h2 : i < 2 ^ 15) :
    (BinWriter.new.writeInt16 i).1 = .ok () ∧
      ((BinReader.new (BinWriter.new.writeInt16 i).2.buffer).readInt16).1 = .ok i := by
  have hw : BinWriter.new.writeInt16 i = (.ok (), ⟨toLEBytes 2 (i % 2 ^ 16).toNat⟩) := by
    unfold BinWriter.new BinWriter.writeInt16
    rw [if_pos (by omega)]
    simp
  rw [hw]
  dsimp only
  refine ⟨rfl, ?_⟩
  simp only [BinReader.new]
  rw [readInt16_eq]
  rw [if_pos (by norm_num [toLEBytes_length])]
  dsimp only
  have hv : decodeU16 (toLEBytes 2 (i % 2 ^ 16).toNat) 0 = (i % 2 ^ 16).toNat := by
    simp [decodeU16, toLEBytes]
    omega
  rw [hv]
  have hs : toSigned 16 (i % 2 ^ 16).toNat = i := by
    unfold toSigned
    split <;> omega
  rw [hs]

lemma rt_i32 (i : Int) (h1 : -2 ^ 31 ≤ i) (h2 : i < 2 ^ 31) :
    (BinWriter.new.writeInt32 i).1 = .ok () ∧
      ((BinReader.new (BinWriter.new.writeInt32 i).2.buffer).readInt32).1 = .ok i := by
  have hw : BinWriter.new.writeInt32 i = (.ok (), ⟨toLEBytes 4 (i % 2 ^ 32).toNat⟩) := by
    unfold BinWriter.new BinWriter.writeInt32
    rw [if_pos (by omega)]
    simp
  rw [hw]
  dsimp only
  refine ⟨rfl, ?_⟩
  simp only [BinReader.new]
  rw [readInt32_eq]
  rw [if_pos (by norm_num [toLEBytes_length])]
  dsimp only
  have hv : decodeU32 (toLEBytes 4 (i % 2 ^ 32).toNat) 0 = (i % 2 ^ 32).toNat := by
    simp [decodeU32, toLEBytes]
    omega
  rw [hv]
  have hs : toSigned 32 (i % 2 ^ 32).toNat = i := by
    unfold toSigned
    split <;> omega
  rw [hs]

lemma rt_f32 (n : Nat) (h : n < 2 ^ 32) :
    (BinWriter.new.writeFloat32 n).1 = .ok () ∧
      ((BinReader.new (BinWriter.new.writeFloat32 n).2.buffer).readFloat32).1 =
        .ok ((n : Nat) : Int) := by
  have hw : BinWriter.new.writeFloat32 n = (.ok (), ⟨toLEBytes 4 n⟩) := by
    unfold BinWriter.new BinWriter.writeFloat32
    simp
  rw [hw]
  dsimp only
  refine ⟨rfl, ?_⟩
  simp only [BinReader.new]
  rw [readFloat32_eq]
  rw [if_pos (by norm_num [toLEBytes_length])]
  dsimp only
  have hv : decodeU32 (toLEBytes 4 n) 0 = n := by
    simp [decodeU32, toLEBytes]
    omega
  rw [hv]

lemma rt_f64 (n : Nat) (h : n < 2 ^ 64) :
    (BinWriter.new.writeDouble n).1 = .ok () ∧
      ((BinReader.new (BinWriter.new.writeDouble n).2.buffer).readDouble).1 =
        .ok ((n : Nat) : Int) := by
  have hw : BinWriter.new.writeDouble n = (.ok (), ⟨toLEBytes 8 n⟩) := by
    unfold BinWriter.new BinWriter.writeDouble
    simp
  rw [hw]
  dsimp only
  refine ⟨rfl, ?_⟩
  simp only [BinReader.new]
  rw [readDouble_eq]
  rw [if_pos (by norm_num [toLEBytes_length])]
  dsimp only
  have hv : decodeU64 (toLEBytes 8 n) 0 = n := by
    simp [decodeU64, toLEBytes]
    omega
  rw [hv]

lemma rt_bytes (bs : List Nat) :
    (BinWriter.new.writeBytes bs).1 = .ok () ∧
      ((BinReader.new (BinWriter.new.writeBytes bs).2.buffer).readBytes
          (bs.length : Int)).1 = bs := by
  have hw : BinWriter.new.writeBytes bs = (.ok (), ⟨bs⟩) := by
    unfold BinWriter.new BinWriter.writeBytes
    simp
  rw [hw]
  dsimp only
  refine ⟨rfl, ?_⟩
  have hres0 : resolveIndex bs.length 0 = 0 := by
    unfold resolveIndex
    norm_num
  have hres : resolveIndex bs.length (0 + (bs.length : Int)) = bs.length := by
    unfold resolveIndex
    rw [if_neg (by omega)]
    omega
  simp only [BinReader.new]
  unfold BinReader.readBytes subarray
  dsimp only
  rw [hres, hres0]
  simp

/-- C1: for every supported type (uint8, int8, uint16, int16, uint32, int32,
float32, double, byte span) and every value representable in that type,
writing the value with a fresh `BinWriter` succeeds, and the corresponding
single read on a `BinReader` constructed over the writer's resulting buffer
returns the value unchanged — exact equality for the integer types, bit-exact
(bit-pattern) equality for the float types, and the identical span for
`writeBytes`/`readBytes`. -/
theorem C1_round_trip (u8 u16 u32 : Nat) (i8 i16 i32 : Int) (f32 f64 : Nat)
    (bs : List Nat) (hu8 : u8 < 2 ^ 8) (hu16 : u16 < 2 ^ 16) (hu32 : u32 < 2 ^ 32)
    (hi8l : -2 ^ 7 ≤ i8) (hi8u : i8 < 2 ^ 7)
    (hi16l : -2 ^ 15 ≤ i16) (hi16u : i16 < 2 ^ 15)
    (hi32l : -2 ^ 31 ≤ i32) (hi32u : i32 < 2 ^ 31)
    (hf32 : f32 < 2 ^ 32) (hf64 : f64 < 2 ^ 64) :
    ((BinWriter.new.writeUInt8 (u8 : Int)).1 = .ok () ∧
      ((BinReader.new (BinWriter.new.writeUInt8 (u8 : Int)).2.buffer).readUInt8).1 =
        .ok ((u8 : Nat) : Int)) ∧
    ((BinWriter.new.writeInt8 i8).1 = .ok () ∧
      ((BinReader.new (BinWriter.new.writeInt8 i8).2.buffer).readInt8).1 = .ok i8) ∧
    ((BinWriter.new.writeUInt16 (u16 : Int)).1 = .ok () ∧
      ((BinReader.new (BinWriter.new.writeUInt16 (u16 : Int)).2.buffer).readUInt16).1 =
        .ok ((u16 : Nat) : Int)) ∧
    ((BinWriter.new.writeInt16 i16).1 = .ok () ∧
      ((BinReader.new (BinWriter.new.writeInt16 i16).2.buffer).readInt16).1 = .ok i16) ∧
    ((BinWriter.new.writeUInt32 (u32 : Int)).1 = .ok () ∧
      ((BinReader.new (BinWriter.new.writeUInt32 (u32 : Int)).2.buffer).readUInt32).1 =
        .ok ((u32 : Nat) : Int)) ∧
    ((BinWriter.new.writeInt32 i32).1 = .ok () ∧
      ((BinReader.new (BinWriter.new.writeInt32 i32).2.buffer).readInt32).1 = .ok i32) ∧
    ((BinWriter.new.writeFloat32 f32).1 = .ok () ∧
      ((BinReader.new (BinWriter.new.writeFloat32 f32).2.buffer).readFloat32).1 =
        .ok ((f32 : Nat) : Int)) ∧
    ((BinWriter.new.writeDouble f64).1 = .ok () ∧
      ((BinReader.new (BinWriter.new.writeDouble f64).2.buffer).readDouble).1 =
        .ok ((f64 : Nat) : Int)) ∧
    ((BinWriter.new.writeBytes bs).1 = .ok () ∧
      ((BinReader.new (BinWriter.new.writeBytes bs).2.buffer).readBytes
          (bs.length : Int)).1 = bs) :=
  ⟨rt_u8 u8 hu8, rt_i8 i8 hi8l hi8u, rt_u16 u16 hu16, rt_i16 i16 hi16l hi16u,
    rt_u32 u32 hu32, rt_i32 i32 hi32l hi32u, rt_f32 f32 hf32, rt_f64 f64 hf64,
    rt_bytes bs⟩

/-- Witness for C1 at the concrete values 255, -2, 0xDEAD, 772, 0xFEEDFACE,
-2, the float32 pattern 0x4F4AFEBB and the double pattern of 123.456, and
the span [1, 2, 3]. -/
theorem C1_round_trip_witness :
    ((BinWriter.new.writeUInt8 ((255 : Nat) : Int)).1 = .ok () ∧
      ((BinReader.new (BinWriter.new.writeUInt8 ((255 : Nat) : Int)).2.buffer).readUInt8).1 =
        .ok ((255 : Nat) : Int)) ∧
    ((BinWriter.new.writeInt8 (-2)).1 = .ok () ∧
      ((BinReader.new (BinWriter.new.writeInt8 (-2)).2.buffer).readInt8).1 = .ok (-2)) ∧
    ((BinWriter.new.writeUInt16 ((0xDEAD : Nat) : Int)).1 = .ok () ∧
      ((BinReader.new (BinWriter.new.writeUInt16 ((0xDEAD : Nat) : Int)).2.buffer).readUInt16).1 =
        .ok ((0xDEAD : Nat) : Int)) ∧
    ((BinWriter.new.writeInt16 772).1 = .ok () ∧
      ((BinReader.new (BinWriter.new.writeInt16 772).2.buffer).readInt16).1 = .ok 772) ∧
    ((BinWriter.new.writeUInt32 ((0xFEEDFACE : Nat) : Int)).1 = .ok () ∧
      ((BinReader.new (BinWriter.new.writeUInt32 ((0xFEEDFACE : Nat) : Int)).2.buffer).readUInt32).1 =
        .ok ((0xFEEDFACE : Nat) : Int)) ∧
    ((BinWriter.new.writeInt32 (-2)).1 = .ok () ∧
      ((BinReader.new (BinWriter.new.writeInt32 (-2)).2.buffer).readInt32).1 = .ok (-2)) ∧
    ((BinWriter.new.writeFloat32 0x4F4AFEBB).1 = .ok () ∧
      ((BinReader.new (BinWriter.new.writeFloat32 0x4F4AFEBB).2.buffer).readFloat32).1 =
        .ok ((0x4F4AFEBB : Nat) : Int)) ∧
    ((BinWriter.new.writeDouble bits123456).1 = .ok () ∧
      ((BinReader.new (BinWriter.new.writeDouble bits123456).2.buffer).readDouble).1 =
        .ok ((bits123456 : Nat) : Int)) ∧
    ((BinWriter.new.writeBytes [1, 2, 3]).1 = .ok () ∧
      ((BinReader.new (BinWriter.new.writeBytes [1, 2, 3]).2.buffer).readBytes
          (([1, 2, 3] : List Nat).length : Int)).1 = [1, 2, 3]) :=
  C1_round_trip 255 0xDEAD 0xFEEDFACE (-2) 772 (-2) 0x4F4AFEBB bits123456 [1, 2, 3]
    (by decide) (by decide) (by decide) (by decide) (by decide) (by decide)
    (by decide) (by decide) (by decide) (by decide) (by decide)

/-- C8: concrete little-endian encodings: writeUInt32 of 0xFEEDFACE on a fresh
writer produces exactly CE FA ED FE; writeDouble of 123.456 (IEEE-754 bit
pattern `bits123456`) produces exactly 77 BE 9F 1A 2F DD 5E 40; a reader over
[0x04, 0x03] returns 772 from readInt16; and every fixed-width read on a
reader over an empty buffer fails with the out-of-range condition. -/
theorem C8_concrete_encodings :
    (BinWriter.new.writeUInt32 0xFEEDFACE).2.buffer = [0xCE, 0xFA, 0xED, 0xFE] ∧
    (BinWriter.new.writeDouble bits123456).2.buffer =
      [0x77, 0xBE, 0x9F, 0x1A, 0x2F, 0xDD, 0x5E, 0x40] ∧
    ((BinReader.new [0x04, 0x03]).readInt16).1 = .ok 772 ∧
    ∀ op : ReadOp, op.isBytes = false →
      op.run (BinReader.new []) = (.error .outOfRange, BinReader.new []) :=
  ⟨by decide, by decide, by decide,
    fun op hop =>
      run_fixed_err op hop (BinReader.new [])
        (by
          have hw := fixed_width_pos op hop
          simp only [BinReader.new, List.length_nil]
          omega)⟩

/-- Witness for the hypothesis-bearing part of C8: readUInt8 on a reader over
the empty buffer fails with the out-of-range condition and leaves the reader
unchanged. -/
theorem C8_concrete_encodings_witness :
    ReadOp.u8.run (BinReader.new []) = (.error .outOfRange, BinReader.new []) :=
  C8_concrete_encodings.2.2.2 ReadOp.u8 rfl

/-- C9: writeInt8 2 on a fresh writer appends the single byte 0x02 (not the
0x01 shown in the source's doc-comment example), and writeInt8 (-2) appends
the single byte 0xFE (two's complement). -/
theorem C9_writeInt8_examples :
    (BinWriter.new.writeInt8 2).2.buffer = [0x02] ∧
    (BinWriter.new.writeInt8 2).2.buffer ≠ [0x01] ∧
    (BinWriter.new.writeInt8 (-2)).2.buffer = [0xFE] := by
  refine ⟨by decide, by decide, by decide⟩

/-- C2 counterexample: the claim quantifies over every reader state and
asserts a fixed-width read succeeds whenever `position + width` does not
exceed the buffer length. The state with `position = -1` over the two-byte
buffer [4, 3] — reachable from a fresh reader via `readBytes (-1)` — has
`position + 1 ≤ 2`, yet `readUInt8` fails (node rejects the negative offset
with the same out-of-range error). -/
theorem C2_counterexample :
    ((BinReader.new [4, 3]).readBytes (-1)).2 = ⟨[4, 3], -1⟩ ∧
    ((⟨[4, 3], -1⟩ : BinReader).position + 1 ≤
      (((⟨[4, 3], -1⟩ : BinReader).buffer.length : Int))) ∧
    (⟨[4, 3], -1⟩ : BinReader).readUInt8 = (.error .outOfRange, ⟨[4, 3], -1⟩) := by
  refine ⟨by decide, by decide, by decide⟩

/-- C2 amended: a fixed-width read of width `w` succeeds — returning a value
and advancing `position` by exactly `w` — precisely when `0 ≤ position` and
`position + w ≤ buffer.length`; otherwise (also at the negative positions
reachable through `readBytes`) it fails with the out-of-range condition,
returns no value, and leaves the reader, in particular its `position`,
exactly as it was. -/
theorem C2_amended_oob (op : ReadOp) (hop : op.isBytes = false) (r : BinReader) :
    (¬(0 ≤ r.position ∧ r.position + op.width ≤ (r.buffer.length : Int)) →
      op.run r = (.error .outOfRange, r)) ∧
    ((0 ≤ r.position ∧ r.position + op.width ≤ (r.buffer.length : Int)) →
      ∃ v, op.run r = (.ok (.num v), { r with position := r.position + op.width })) :=
  ⟨fun h => run_fixed_err op hop r h, fun h => run_fixed_ok op hop r h⟩

/-- Witness for C2 as amended: readUInt16 at position 1 of a two-byte buffer
fails and leaves the reader unchanged. -/
theorem C2_amended_oob_witness :
    ReadOp.u16.run ⟨[4, 3], 1⟩ = (.error .outOfRange, ⟨[4, 3], 1⟩) :=
  (C2_amended_oob .u16 rfl ⟨[4, 3], 1⟩).1 (by decide)

lemma seq_fixed_inv (ops : List ReadOp) (r : BinReader)
    (hall : ∀ op ∈ ops, ReadOp.isBytes op = false)
    (h0 : 0 ≤ r.position) (h1 : r.position ≤ (r.buffer.length : Int)) :
    0 ≤ (runSeq ops r).position ∧
      (runSeq ops r).position ≤ ((runSeq ops r).buffer.length : Int) := by
  induction ops generalizing r with
  | nil => exact ⟨h0, h1⟩
  | cons op ops ih =>
    rw [runSeq_cons]
    have hop := hall op (by simp)
    have hinv := run_fixed_inv op hop r h0 h1
    have hbuf := run_buffer op r
    refine ih (op.run r).2 (fun o ho => hall o (by simp [ho])) hinv.1 ?_
    rw [hbuf]
    exact hinv.2

/-- C4 counterexample: the claim covers `readBytes` with any caller-supplied
length and asserts every operation that succeeds preserves
`0 ≤ position ≤ buffer.length` and that an operation needing
`position + width > buffer.length` fails. On a reader over the empty buffer,
`readBytes 1` needs `0 + 1 > 0` yet succeeds (returning the clamped, empty
span) and leaves `position = 1`, strictly beyond the buffer length. -/
theorem C4_counterexample :
    (ReadOp.bytes 1).run (BinReader.new []) = (.ok (.span []), ⟨[], 1⟩) ∧
    ¬((⟨[], 1⟩ : BinReader).position ≤ (((⟨[], 1⟩ : BinReader).buffer.length : Int))) := by
  refine ⟨by decide, by decide⟩

/-- C4 amended: restricted to the fixed-width reads the invariant holds: from
any state with `0 ≤ position ≤ buffer.length`, an operation that would need
`position + width > buffer.length` fails with the out-of-range condition
without touching the state, and the state after the operation — and, by
iteration, after any sequence of fixed-width reads — still satisfies
`0 ≤ position ≤ buffer.length`. `readBytes`, by contrast, succeeds for every
length and adds it to `position` unchecked, which can leave `position`
outside `[0, buffer.length]` (see the counterexample). -/
theorem C4_amended_invariant :
    (∀ (r : BinReader) (op : ReadOp), op.isBytes = false →
      0 ≤ r.position → r.position ≤ (r.buffer.length : Int) →
      (((r.buffer.length : Int) < r.position + op.width →
        op.run r = (.error .outOfRange, r)) ∧
      (0 ≤ (op.run r).2.position ∧
        (op.run r).2.position ≤ (r.buffer.length : Int)))) ∧
    (∀ (ops : List ReadOp) (r : BinReader), (∀ op ∈ ops, ReadOp.isBytes op = false) →
      0 ≤ r.position → r.position ≤ (r.buffer.length : Int) →
      0 ≤ (runSeq ops r).position ∧
        (runSeq ops r).position ≤ ((runSeq ops r).buffer.length : Int)) :=
  ⟨fun r op hop h0 h1 =>
    ⟨fun hlt => run_fixed_err op hop r (by omega),
      run_fixed_inv op hop r h0 h1⟩,
    fun ops r hall h0 h1 => seq_fixed_inv ops r hall h0 h1⟩

/-- Witness for C4 as amended: two consecutive readUInt8 calls on a reader
over [4, 3] keep the position inside the buffer bounds. -/
theorem C4_amended_invariant_witness :
    0 ≤ (runSeq [ReadOp.u8, ReadOp.u8] (BinReader.new [4, 3])).position ∧
      (runSeq [ReadOp.u8, ReadOp.u8] (BinReader.new [4, 3])).position ≤
        (((runSeq [ReadOp.u8, ReadOp.u8] (BinReader.new [4, 3])).buffer.length : Int)) :=
  C4_amended_invariant.2 [ReadOp.u8, ReadOp.u8] (BinReader.new [4, 3])
    (by decide) (by decide) (by decide)

/-- C5 counterexample: `readBytes (-1)` on a fresh reader over [4, 3] does not
fail with any condition: it returns the one-byte span [4] (the negative end
index resolves from the end of the buffer) and changes `position` to -1. -/
theorem C5_counterexample :
    (BinReader.new [4, 3]).readBytes (-1) = ([4], ⟨[4, 3], -1⟩) ∧
    ((BinReader.new [4, 3]).readBytes (-1)).2.position ≠ (BinReader.new [4, 3]).position := by
  refine ⟨by decide, by decide⟩

/-- C5 amended: `readBytes` performs no argument validation: for every
negative length `n` it still returns `buffer.subarray(position, position + n)`
— negative resolved endpoints count from the end of the buffer rather than
raising `InvalidArgument` — and it moves `position` backwards to
`position + n`. -/
theorem C5_amended_negative_readBytes (r : BinReader) (n : Int) (hn : n < 0) :
    r.readBytes n = (subarray r.buffer r.position (r.position + n),
      { r with position := r.position + n }) ∧
    (r.readBytes n).2.position < r.position :=
  ⟨rfl, by
    unfold BinReader.readBytes
    dsimp only
    omega⟩

/-- Witness for C5 as amended: readBytes (-1) from position 0 moves the
position strictly backwards. -/
theorem C5_amended_negative_readBytes_witness :
    ((BinReader.new [4, 3]).readBytes (-1)).2.position < (BinReader.new [4, 3]).position :=
  (C5_amended_negative_readBytes (BinReader.new [4, 3]) (-1) (by decide)).2

/-- C7 counterexample: the claim asserts `position` never decreases across any
sequence of operations. `readBytes (-1)` from a fresh reader over [4, 3] is a
successful read (it returns the span [4]) after which `position` is -1,
strictly below its prior value 0. -/
theorem C7_counterexample :
    (ReadOp.bytes (-1)).run (BinReader.new [4, 3]) = (.ok (.span [4]), ⟨[4, 3], -1⟩) ∧
    ((ReadOp.bytes (-1)).run (BinReader.new [4, 3])).2.position <
      (BinReader.new [4, 3]).position := by
  refine ⟨by decide, by decide⟩

/-- C7 amended: `position` starts at 0 at construction; every successful read
advances `position` by exactly the byte width it consumes (for `readBytes`,
the caller-supplied length — which is negative for a negative argument); and
across any sequence of operations whose `readBytes` lengths are all
nonnegative (fixed-width reads always are), `position` never decreases. With
a negative `readBytes` length it does decrease (see the counterexample). -/
theorem C7_position_advance :
    (∀ buf, (BinReader.new buf).position = 0) ∧
    (∀ (op : ReadOp) (r : BinReader) (res : ReadResult) (r' : BinReader),
      op.run r = (.ok res, r') → r'.position = r.position + op.width) ∧
    (∀ (ops : List ReadOp) (r : BinReader), (∀ op ∈ ops, 0 ≤ ReadOp.width op) →
      r.position ≤ (runSeq ops r).position) := by
  refine ⟨fun buf => rfl, ?_, fun ops r h => runSeq_mono ops h r⟩
  intro op r res r' h
  by_cases hop : op.isBytes = false
  · by_cases hb : 0 ≤ r.position ∧ r.position + op.width ≤ (r.buffer.length : Int)
    · obtain ⟨v, hv⟩ := run_fixed_ok op hop r hb
      rw [hv] at h
      have h2 : ({ r with position := r.position + op.width } : BinReader) = r' :=
        congrArg Prod.snd h
      rw [← h2]
    · rw [run_fixed_err op hop r hb] at h
      exact Except.noConfusion (congrArg Prod.fst h)
  · cases op <;>
      first
      | (rename_i n
         simp only [ReadOp.run] at h
         have h2 : (r.readBytes n).2 = r' := congrArg Prod.snd h
         rw [← h2]
         unfold BinReader.readBytes
         rfl)
      | simp [ReadOp.isBytes] at hop

/-- Witness for C7 as amended: a readUInt8 followed by readBytes 1 never moves
the position backwards. -/
theorem C7_position_advance_witness :
    (BinReader.new [4, 3]).position ≤
      (runSeq [ReadOp.u8, ReadOp.bytes 1] (BinReader.new [4, 3])).position :=
  C7_position_advance.2.2 [ReadOp.u8, ReadOp.bytes 1] (BinReader.new [4, 3]) (by decide)

lemma resolveIndex_le (len : Nat) (i : Int) : resolveIndex len i ≤ len := by
  unfold resolveIndex
  split <;> omega

/-- Endpoint rule asserted by claim C10 — both endpoints of
`[position, position + length)` clamped into `[0, buffer.length]` — written
from the claim's words to compare against the implementation's `subarray`,
which resolves a negative endpoint from the end of the buffer instead of
clamping it to 0. -/
def clampedSpanClaim (buf : List Nat) (b e : Int) : List Nat :=
  (buf.drop (min b.toNat buf.length)).take (min e.toNat buf.length - min b.toNat buf.length)

/-- C10 counterexample: by the claim's clamping rule,
`readBytes (-1)` at position 0 over [4, 3] would clamp the end index
`0 + (-1)` to 0 and return the empty span; the implementation instead
resolves -1 from the end of the buffer and returns the one-byte span [4]. -/
theorem C10_counterexample :
    ((BinReader.new [4, 3]).readBytes (-1)).1 = [4] ∧
    clampedSpanClaim [4, 3] 0 (0 + -1) = [] ∧
    ([4] : List Nat) ≠ ([] : List Nat) := by
  refine ⟨by decide, by decide, by decide⟩

/-- C10 amended: for every reader state and every integer length, `readBytes`
raises no error: it returns the span of the buffer between the resolved
indices of `position` and `position + length` — a negative index resolving to
`buffer.length + index` (floored at 0) per the subarray rule, a nonnegative
one capped at `buffer.length`, with an empty result when they cross — its
result length is exactly the distance between the two resolved indices, and
it unconditionally sets `position` to `position + length`, which may move the
position backwards (negative length) or beyond the buffer length (over-long
read). -/
theorem C10_readBytes_total (r : BinReader) (n : Int) :
    (r.readBytes n).1 =
      (r.buffer.drop (resolveIndex r.buffer.length r.position)).take
        (resolveIndex r.buffer.length (r.position + n) -
          resolveIndex r.buffer.length r.position) ∧
    (r.readBytes n).1.length =
      resolveIndex r.buffer.length (r.position + n) -
        resolveIndex r.buffer.length r.position ∧
    (r.readBytes n).2 = { r with position := r.position + n } := by
  refine ⟨rfl, ?_, rfl⟩
  unfold BinReader.readBytes subarray
  dsimp only
  rw [List.length_take, List.length_drop]
  have h1 := resolveIndex_le r.buffer.length (r.position + n)
  have h2 := resolveIndex_le r.buffer.length r.position
  omega

/-- Representability condition enforced by the node write accessor backing a
write operation: the checked integer range for the fixed-width integer
writes, no condition for the float and byte-span writes. -/
def WriteOp.representable : WriteOp → Prop
  | .u8 v => 0 ≤ v ∧ v ≤ 2 ^ 8 - 1
  | .u16 v => 0 ≤ v ∧ v ≤ 2 ^ 16 - 1
  | .u32 v => 0 ≤ v ∧ v ≤ 2 ^ 32 - 1
  | .i8 v => -2 ^ 7 ≤ v ∧ v ≤ 2 ^ 7 - 1
  | .i16 v => -2 ^ 15 ≤ v ∧ v ≤ 2 ^ 15 - 1
  | .i32 v => -2 ^ 31 ≤ v ∧ v ≤ 2 ^ 31 - 1
  | .f32 _ => True
  | .f64 _ => True
  | .bytes _ => True

/-- Bytes a write operation appends on success: the fixed-width little-endian
encoding of the value (two's complement for the signed widths), the IEEE-754
bytes for the floats, the span itself for writeBytes. -/
def WriteOp.encoding : WriteOp → List Nat
  | .u8 v => toLEBytes 1 v.toNat
  | .u16 v => toLEBytes 2 v.toNat
  | .u32 v => toLEBytes 4 v.toNat
  | .i8 v => toLEBytes 1 (v % 2 ^ 8).toNat
  | .i16 v => toLEBytes 2 (v % 2 ^ 16).toNat
  | .i32 v => toLEBytes 4 (v % 2 ^ 32).toNat
  | .f32 b => toLEBytes 4 b
  | .f64 b => toLEBytes 8 b
  | .bytes bs => bs

lemma encoding_length (op : WriteOp) : op.encoding.length = op.width := by
  cases op <;> simp [WriteOp.encoding, WriteOp.width, toLEBytes_length]

lemma wrun_spec (op : WriteOp) (w : BinWriter) :
    ((op.run w).1 = .ok () ↔ op.representable) ∧
    ((op.run w).1 = .ok () → (op.run w).2.buffer = w.buffer ++ op.encoding) ∧
    ((op.run w).1 = .error .outOfRange → (op.run w).2 = w) := by
  cases op <;>
    simp only [WriteOp.run, WriteOp.representable, WriteOp.encoding,
      BinWriter.writeUInt8, BinWriter.writeUInt16, BinWriter.writeUInt32,
      BinWriter.writeInt8, BinWriter.writeInt16, BinWriter.writeInt32,
      BinWriter.writeFloat32, BinWriter.writeDouble, BinWriter.writeBytes] <;>
    first
    | (split
       · rename_i hc
         exact ⟨⟨fun _ => hc, fun _ => rfl⟩, fun _ => rfl, fun h => Except.noConfusion h⟩
       · rename_i hc
         exact ⟨⟨fun h => Except.noConfusion h, fun h => absurd h hc⟩,
           fun h => Except.noConfusion h, fun _ => rfl⟩)
    | simp

/-- C3 counterexample: writeUInt8 with the out-of-range value 256 does not
append the truncated byte 0x00 — node's accessor rejects the value with
ERR_OUT_OF_RANGE and the writer's buffer stays empty. -/
theorem C3_counterexample :
    BinWriter.new.writeUInt8 256 = (.error .outOfRange, BinWriter.new) ∧
    BinWriter.new.writeUInt8 256 ≠ (.ok (), ⟨[0]⟩) := by
  refine ⟨by decide, by decide⟩

/-- C3 amended: a fixed-width write succeeds exactly when its value is
representable in the target width (floats and byte spans always are); on
success it appends exactly the width-long little-endian encoding of the
value; a value outside the representable range makes the write fail with the
out-of-range condition and leaves the writer unchanged — no truncation takes
place. -/
theorem C3_write_range_check (op : WriteOp) (w : BinWriter) :
    ((op.run w).1 = .ok () ↔ WriteOp.representable op) ∧
    ((op.run w).1 = .ok () → (op.run w).2.buffer = w.buffer ++ WriteOp.encoding op) ∧
    ((op.run w).1 = .error .outOfRange → (op.run w).2 = w) :=
  wrun_spec op w

/-- Witness for C3 as amended: writeUInt8 300 fails and leaves the fresh
writer unchanged, and writeUInt8 255 succeeds appending [0xFF]. -/
theorem C3_write_range_check_witness :
    ((WriteOp.u8 300).run BinWriter.new).2 = BinWriter.new ∧
    ((WriteOp.u8 255).run BinWriter.new).2.buffer =
      BinWriter.new.buffer ++ WriteOp.encoding (WriteOp.u8 255) :=
  ⟨(C3_write_range_check (WriteOp.u8 300) BinWriter.new).2.2 (by decide),
    (C3_write_range_check (WriteOp.u8 255) BinWriter.new).2.1 (by decide)⟩

lemma runWSeq_cons (op : WriteOp) (ops : List WriteOp) (w : BinWriter) :
    runWSeq (op :: ops) w = runWSeq ops (op.run w).2 := rfl

lemma runWSeq_append (l l' : List WriteOp) (w : BinWriter) :
    runWSeq (l ++ l') w = runWSeq l' (runWSeq l w) := by
  unfold runWSeq
  rw [List.foldl_append]

lemma wseqOk_append_left (pre post : List WriteOp) (w : BinWriter)
    (h : WSeqOk (pre ++ post) w) : WSeqOk pre w := by
  induction pre generalizing w with
  | nil => trivial
  | cons op ops ih => exact ⟨h.1, ih (op.run w).2 h.2⟩

lemma wrun_append_any (op : WriteOp) (w : BinWriter) :
    ∃ t, (op.run w).2.buffer = w.buffer ++ t := by
  rcases hr : (op.run w).1 with e | u
  · cases e
    exact ⟨[], by rw [(wrun_spec op w).2.2 hr] ; simp⟩
  · cases u
    exact ⟨op.encoding, (wrun_spec op w).2.1 hr⟩

lemma runWSeq_append_any (ops : List WriteOp) (w : BinWriter) :
    ∃ t, (runWSeq ops w).buffer = w.buffer ++ t := by
  induction ops generalizing w with
  | nil => exact ⟨[], by simp [runWSeq]⟩
  | cons op ops ih =>
    obtain ⟨c, hc⟩ := wrun_append_any op w
    obtain ⟨t, ht⟩ := ih (op.run w).2
    exact ⟨c ++ t, by rw [runWSeq_cons, ht, hc, List.append_assoc]⟩

lemma wseq_len (ops : List WriteOp) (w : BinWriter) (h : WSeqOk ops w) :
    (runWSeq ops w).buffer.length = w.buffer.length + (ops.map WriteOp.width).sum := by
  induction ops generalizing w with
  | nil => simp [runWSeq]
  | cons op ops ih =>
    have hbuf := (wrun_spec op w).2.1 h.1
    rw [runWSeq_cons, ih _ h.2, hbuf]
    simp [encoding_length]
    omega

/-- C6: any single write that succeeds appends exactly a chunk of its
operation's byte width (regardless of the value's magnitude), and for every
sequence of writes from a fresh writer in which each operation succeeds, at
every intermediate point of the sequence the buffer length equals the sum of
the byte widths written so far, and the bytes already in the buffer at that
point persist as a prefix of the final buffer — writes never alter earlier
bytes. -/
theorem C6_append_purity :
    (∀ (op : WriteOp) (w : BinWriter), (op.run w).1 = .ok () →
      ∃ chunk, chunk.length = op.width ∧ (op.run w).2.buffer = w.buffer ++ chunk) ∧
    (∀ ops pre post : List WriteOp, ops = pre ++ post → WSeqOk ops BinWriter.new →
      (runWSeq pre BinWriter.new).buffer.length = (pre.map WriteOp.width).sum ∧
      ∃ t, (runWSeq ops BinWriter.new).buffer = (runWSeq pre BinWriter.new).buffer ++ t) := by
  refine ⟨fun op w h => ⟨op.encoding, encoding_length op, (wrun_spec op w).2.1 h⟩, ?_⟩
  intro ops pre post hsplit hok
  subst hsplit
  constructor
  · have hlen := wseq_len pre BinWriter.new (wseqOk_append_left pre post BinWriter.new hok)
    simpa [BinWriter.new] using hlen
  · rw [runWSeq_append]
    exact runWSeq_append_any post _

/-- Witness for C6: writing 0xFF as uint8 then -2 as int8 from a fresh writer;
after the first write the buffer holds exactly 1 byte, and it stays a prefix
of the final buffer. -/
theorem C6_append_purity_witness :
    (runWSeq [WriteOp.u8 255] BinWriter.new).buffer.length =
      (([WriteOp.u8 255] : List WriteOp).map WriteOp.width).sum ∧
    ∃ t, (runWSeq [WriteOp.u8 255, WriteOp.i8 (-2)] BinWriter.new).buffer =
      (runWSeq [WriteOp.u8 255] BinWriter.new).buffer ++ t :=
  C6_append_purity.2 [WriteOp.u8 255, WriteOp.i8 (-2)] [WriteOp.u8 255]
    [WriteOp.i8 (-2)] rfl ⟨by decide, by decide, trivial⟩
